import Mathlib

/-!
Verification development for the charconv numeric text codec.

The definitions below are shallow embeddings of the C++ sources:
 - src/from_chars.cpp        (integer parser `from_chars_impl`, digit table)
 - src/to_chars_float_impl.hpp (float format dispatcher, non-finite renderer,
                                hex-float rounding, fixed-renderer loops)

Machine integers are modelled as `Nat`/`Int` with explicit reduction modulo
2^w where the C++ code performs w-bit unsigned arithmetic.  Buffer writes are
modelled as lists of (offset, byte) pairs, offsets taken from `first`.
Out-of-bounds array indexing (undefined behavior) is modelled as `none`.
-/

set_option maxRecDepth 20000

namespace Charconv

/-- Errno value EINVAL returned by the parser for invalid input. -/
def EINVAL : ℕ := 22

/-- Errno value ERANGE returned by the parser on overflow. -/
def ERANGE : ℕ := 34

/-- The 256-entry digit table `uchar_values` of src/from_chars.cpp:17-33:
bytes for the ASCII digits map to 0-9, ASCII letters (either case) to 10-35,
everything else to 255. -/
def uchar_values : List ℕ :=
  [255, 255, 255, 255, 255, 255, 255, 255, 255, 255, 255, 255, 255, 255, 255, 255,
   255, 255, 255, 255, 255, 255, 255, 255, 255, 255, 255, 255, 255, 255, 255, 255,
   255, 255, 255, 255, 255, 255, 255, 255, 255, 255, 255, 255, 255, 255, 255, 255,
     0,   1,   2,   3,   4,   5,   6,   7,   8,   9, 255, 255, 255, 255, 255, 255,
   255,  10,  11,  12,  13,  14,  15,  16,  17,  18,  19,  20,  21,  22,  23,  24,
    25,  26,  27,  28,  29,  30,  31,  32,  33,  34,  35, 255, 255, 255, 255, 255,
   255,  10,  11,  12,  13,  14,  15,  16,  17,  18,  19,  20,  21,  22,  23,  24,
    25,  26,  27,  28,  29,  30,  31,  32,  33,  34,  35, 255, 255, 255, 255, 255,
   255, 255, 255, 255, 255, 255, 255, 255, 255, 255, 255, 255, 255, 255, 255, 255,
   255, 255, 255, 255, 255, 255, 255, 255, 255, 255, 255, 255, 255, 255, 255, 255,
   255, 255, 255, 255, 255, 255, 255, 255, 255, 255, 255, 255, 255, 255, 255, 255,
   255, 255, 255, 255, 255, 255, 255, 255, 255, 255, 255, 255, 255, 255, 255, 255,
   255, 255, 255, 255, 255, 255, 255, 255, 255, 255, 255, 255, 255, 255, 255, 255,
   255, 255, 255, 255, 255, 255, 255, 255, 255, 255, 255, 255, 255, 255, 255, 255,
   255, 255, 255, 255, 255, 255, 255, 255, 255, 255, 255, 255, 255, 255, 255, 255,
   255, 255, 255, 255, 255, 255, 255, 255, 255, 255, 255, 255, 255, 255, 255, 255]

/-- Index used by `digit_from_char` (src/from_chars.cpp:38): the char value is
cast directly to `std::size_t`.  `signedChar` says whether the platform `char`
type is signed; a byte `b ≥ 128` is then the negative char value `b - 256`,
whose conversion to the 64-bit `size_t` wraps modulo 2^64. -/
def char_index (signedChar : Bool) (b : ℕ) : ℕ :=
  if signedChar ∧ 128 ≤ b then 2 ^ 64 + b - 256 else b

/-- Translation of `digit_from_char` (src/from_chars.cpp:36-39):
`uchar_values[static_cast<std::size_t>(val)]`.  Indexing the 256-entry table
out of bounds is undefined behavior, modelled as `none`. -/
def digit_from_char (signedChar : Bool) (b : ℕ) : Option ℕ :=
  uchar_values.get? (char_index signedChar b)

/-- Interpretation of a w-bit unsigned value as the two's-complement signed
value produced by `static_cast<Integer>(result)` (src/from_chars.cpp:139). -/
def toSigned (w : ℕ) (n : ℕ) : ℤ :=
  if n < 2 ^ (w - 1) then (n : ℤ) else (n : ℤ) - 2 ^ w

/-- Wrap an integer into the w-bit two's-complement range, modelling signed
arithmetic that wraps on overflow (two's-complement hardware behavior). -/
def wrapS (w : ℕ) (x : ℤ) : ℤ := (x + 2 ^ (w - 1)) % 2 ^ w - 2 ^ (w - 1)

/-- Translation of the signed `apply_sign` (src/from_chars.cpp:41-45): it
returns `-val` computed on the signed type itself; at the most negative value
the mathematical result is not representable and wraps. -/
def apply_sign (w : ℕ) (v : ℤ) : ℤ := wrapS w (-v)

/-- Side condition used by the specification: negating `v` stays inside the
w-bit signed range, i.e. the sign application introduces no overflow. -/
def negInRange (w : ℕ) (v : ℤ) : Prop :=
  -(2 ^ (w - 1) : ℤ) ≤ -v ∧ -v < 2 ^ (w - 1)

instance (w : ℕ) (v : ℤ) : Decidable (negInRange w v) := by
  unfold negInRange; infer_instance

/-- Sign handling of `from_chars_impl` (src/from_chars.cpp:70-85): for signed
target types only, one leading '-' (byte 45) or '+' (byte 43) is stripped.
This gives the remaining range `[next, last)`. -/
def afterSign (signed : Bool) (input : List ℕ) : List ℕ :=
  match signed, input with
  | true, c :: r => if c = 45 then r else if c = 43 then r else c :: r
  | _, l => l

/-- Number of sign characters stripped by `from_chars_impl` (0 or 1). -/
def signOffset (signed : Bool) (input : List ℕ) : ℕ :=
  match signed, input with
  | true, c :: _ => if c = 45 then 1 else if c = 43 then 1 else 0
  | _, _ => 0

/-- The `is_negative` flag of `from_chars_impl` (src/from_chars.cpp:70-79). -/
def strippedNeg (signed : Bool) (input : List ℕ) : Bool :=
  match signed, input with
  | true, c :: _ => c == 45
  | _, _ => false

/-- The parsing loop of `from_chars_impl` (src/from_chars.cpp:112-130).
Characters are read with `*next++`, so `next` is advanced before the digit
test; the first component of the result is the number of characters consumed.
`m` is 2^w, the modulus of `Unsigned_Integer` arithmetic; `ov` and `md` are
`overflow_value` and `max_digit`.  Returns `none` when a digit lookup is out
of bounds (undefined behavior). -/
def fc_loop (sc : Bool) (base m ov md : ℕ) :
    ℕ → Bool → ℕ → List ℕ → Option (ℕ × ℕ × Bool)
  | res, ovf, consumed, [] => some (consumed, res, ovf)
  | res, ovf, consumed, c :: rest =>
    match digit_from_char sc c with
    | none => none
    | some d =>
      if base ≤ d then some (consumed + 1, res, ovf)
      else if res < ov ∨ (res = ov ∧ d ≤ md) then
        fc_loop sc base m ov md ((res * base + d) % m) ovf (consumed + 1) rest
      else fc_loop sc base m ov md res true (consumed + 1) rest

/-- Result of the parser: `idx` is `end - first`, `ec` the error code (0 ok,
EINVAL, ERANGE), `out` the value written to the out-parameter (`none` when it
is left untouched). -/
structure Fcr where
  idx : ℕ
  ec : ℕ
  out : Option ℤ
deriving DecidableEq, Repr

/-- Translation of `from_chars_impl` (src/from_chars.cpp:53-149) for a target
integer type of width `w` bits, signedness `signed`, on a platform whose char
type is signed iff `sc`.  The input range `[first, last)` with `first ≤ last`
is the list of byte values `input`; the case `first > last` of the C++ code
cannot arise in the list model.  `adjMax` is `max(T)` adjusted by one on the
negative branch (the C++ `++overflow_value; ++max_digit` at lines 90-94).
Returns `none` when a digit lookup is out of bounds (undefined behavior). -/
def from_chars_impl (w : ℕ) (signed sc : Bool) (input : List ℕ) (base : ℕ) :
    Option Fcr :=
  let m := 2 ^ w
  let is_negative := strippedNeg signed input
  let rest := afterSign signed input
  let adjMax : ℕ :=
    if signed then 2 ^ (w - 1) - 1 + (if is_negative then 1 else 0) else m - 1
  let overflow_value := adjMax / base
  let max_digit := adjMax % base
  if rest = [] then some ⟨0, EINVAL, none⟩
  else
    match fc_loop sc base m overflow_value max_digit 0 false 0 rest with
    | none => none
    | some (consumed, res, ovf) =>
      if ovf then some ⟨signOffset signed input + consumed, ERANGE, none⟩
      else
        let v : ℤ :=
          if signed then
            (if is_negative then apply_sign w (toSigned w res) else toSigned w res)
          else (res : ℤ)
        some ⟨signOffset signed input + consumed, 0, some v⟩

/-- Validity of byte `c` as a digit in the given base, as the loop tests it:
the looked-up digit value is defined and below the base. -/
def validDigit (sc : Bool) (base c : ℕ) : Bool :=
  match digit_from_char sc c with
  | some d => decide (d < base)
  | none => false

/-- Number of characters the parsing loop consumes from a list: one past the
first invalid digit when the loop stops on one, the whole list otherwise. -/
def stopLen (sc : Bool) (base : ℕ) : List ℕ → ℕ
  | [] => 0
  | c :: rest => if validDigit sc base c then stopLen sc base rest + 1 else 1

theorem digit_from_char_isSome (sc : Bool) (c : ℕ) (hc : c < 128) :
    ∃ d, digit_from_char sc c = some d := by
  have hidx : char_index sc c = c := by
    unfold char_index
    rw [if_neg]
    rintro ⟨-, h⟩
    omega
  unfold digit_from_char
  rw [hidx]
  cases hval : uchar_values.get? c with
  | none =>
    have hlen : uchar_values.length ≤ c := List.get?_eq_none.mp hval
    have h256 : uchar_values.length = 256 := by decide
    omega
  | some d => exact ⟨d, rfl⟩

theorem mem_afterSign (signed : Bool) (input : List ℕ) (c : ℕ)
    (h : c ∈ afterSign signed input) : c ∈ input := by
  cases signed with
  | false => simpa [afterSign] using h
  | true =>
    cases input with
    | nil => simpa [afterSign] using h
    | cons a r =>
      simp only [afterSign] at h
      split_ifs at h with h1 h2
      · exact List.mem_cons_of_mem a h
      · exact List.mem_cons_of_mem a h
      · exact h

theorem fc_loop_stop (sc : Bool) (base m ov md : ℕ) :
    ∀ (l : List ℕ), (∀ c ∈ l, c < 128) →
    ∀ res ovf consumed, ∃ res2 ovf2,
      fc_loop sc base m ov md res ovf consumed l =
        some (consumed + stopLen sc base l, res2, ovf2) := by
  intro l
  induction l with
  | nil =>
    intro _ res ovf consumed
    exact ⟨res, ovf, by simp [fc_loop, stopLen]⟩
  | cons c rest ih =>
    intro hl res ovf consumed
    obtain ⟨d, hd⟩ := digit_from_char_isSome sc c (hl c (List.mem_cons_self c rest))
    have hrest : ∀ x ∈ rest, x < 128 := fun x hx => hl x (List.mem_cons_of_mem c hx)
    have hvd : validDigit sc base c = decide (d < base) := by
      unfold validDigit
      rw [hd]
    by_cases hb : base ≤ d
    · refine ⟨res, ovf, ?_⟩
      have hstop : stopLen sc base (c :: rest) = 1 := by
        simp [stopLen, hvd]
        omega
      simp only [fc_loop, hd, if_pos hb, hstop]
    · have hstop : stopLen sc base (c :: rest) = stopLen sc base rest + 1 := by
        simp [stopLen, hvd]
        omega
      by_cases hq : res < ov ∨ (res = ov ∧ d ≤ md)
      · obtain ⟨r2, o2, h2⟩ := ih hrest ((res * base + d) % m) ovf (consumed + 1)
        refine ⟨r2, o2, ?_⟩
        simp only [fc_loop, hd, if_neg hb, if_pos hq, h2, hstop]
        congr 2
        omega
      · obtain ⟨r2, o2, h2⟩ := ih hrest res true (consumed + 1)
        refine ⟨r2, o2, ?_⟩
        simp only [fc_loop, hd, if_neg hb, if_neg hq, h2, hstop]
        congr 2
        omega

theorem afterSign_eq_nil_iff (signed : Bool) (input : List ℕ) :
    afterSign signed input = [] ↔
      input = [] ∨ (signed = true ∧ (input = [45] ∨ input = [43])) := by
  cases signed with
  | false => simp [afterSign]
  | true =>
    cases input with
    | nil => simp [afterSign]
    | cons a r =>
      simp only [afterSign]
      split_ifs with h1 h2 <;> subst_eqs <;> simp_all

/-- C2 (amended): for every input range with first ≤ last and base in [2,36],
over ASCII bytes, the end position returned on success and on overflow is
`signOffset + stopLen`: one past the first character after the optional sign
that is not a valid digit for the base, or last when every remaining
character is a valid digit.  The terminating non-digit is consumed because
the loop reads with `*next++` before testing the digit. -/
theorem c2_end_position (w : ℕ) (signed sc : Bool) (input : List ℕ) (base : ℕ)
    (hbase : 2 ≤ base ∧ base ≤ 36) (hascii : ∀ c ∈ input, c < 128) :
    ∃ fcr : Fcr, from_chars_impl w signed sc input base = some fcr ∧
      (fcr.ec ≠ EINVAL →
        fcr.idx = signOffset signed input + stopLen sc base (afterSign signed input)) := by
  have hrest : ∀ c ∈ afterSign signed input, c < 128 :=
    fun c hc => hascii c (mem_afterSign signed input c hc)
  by_cases hnil : afterSign signed input = []
  · refine ⟨⟨0, EINVAL, none⟩, ?_, ?_⟩
    · simp [from_chars_impl, hnil]
    · intro h
      exact absurd rfl h
  · obtain ⟨res2, ovf2, hloop⟩ :=
      fc_loop_stop sc base (2 ^ w)
        ((if signed then 2 ^ (w - 1) - 1 + (if strippedNeg signed input then 1 else 0)
          else 2 ^ w - 1) / base)
        ((if signed then 2 ^ (w - 1) - 1 + (if strippedNeg signed input then 1 else 0)
          else 2 ^ w - 1) % base)
        (afterSign signed input) hrest 0 false 0
    have hmain : from_chars_impl w signed sc input base =
        some ⟨signOffset signed input + stopLen sc base (afterSign signed input),
              if ovf2 = true then ERANGE else 0,
              if ovf2 = true then none
              else some (if signed = true then
                          (if strippedNeg signed input = true then
                            apply_sign w (toSigned w res2)
                          else toSigned w res2)
                        else (res2 : ℤ))⟩ := by
      simp only [from_chars_impl, if_neg hnil, hloop, Nat.zero_add]
      cases ovf2 <;> simp
    exact ⟨_, hmain, fun _ => rfl⟩

/-- C2 witness at a concrete input. -/
theorem c2_end_position_witness :
    ∃ fcr : Fcr, from_chars_impl 32 true false [49, 120] 10 = some fcr ∧
      (fcr.ec ≠ EINVAL →
        fcr.idx = signOffset true [49, 120] + stopLen false 10 (afterSign true [49, 120])) :=
  c2_end_position 32 true false [49, 120] 10 (by decide) (by decide)

/-- C2 counterexample to the claim as stated: parsing "1x" in base 10 for a
32-bit signed target succeeds with value 1, but the returned end position is
2 — one PAST the invalid character 'x' at position 1 — because the loop
consumed 'x' before testing it; the claim requires end = 1. -/
theorem c2_claim_counterexample :
    from_chars_impl 32 true false [49, 120] 10 = some ⟨2, 0, some 1⟩ ∧
    validDigit false 10 49 = true ∧ validDigit false 10 120 = false := by decide

/-- C3 (amended): invalid-argument with end = first is returned exactly for
the empty range and, for signed target types only, a sign-only range.  A
leading non-digit is otherwise consumed and yields ok with value 0. -/
theorem c3_invalid_argument (w : ℕ) (signed sc : Bool) (input : List ℕ) (base : ℕ)
    (hbase : 2 ≤ base ∧ base ≤ 36) (hascii : ∀ c ∈ input, c < 128) :
    ∃ fcr : Fcr, from_chars_impl w signed sc input base = some fcr ∧
      ((fcr.ec = EINVAL ∧ fcr.idx = 0) ↔
        (input = [] ∨ (signed = true ∧ (input = [45] ∨ input = [43])))) := by
  have hrest : ∀ c ∈ afterSign signed input, c < 128 :=
    fun c hc => hascii c (mem_afterSign signed input c hc)
  by_cases hnil : afterSign signed input = []
  · refine ⟨⟨0, EINVAL, none⟩, ?_, ?_⟩
    · simp [from_chars_impl, hnil]
    · simpa using (afterSign_eq_nil_iff signed input).mp hnil
  · obtain ⟨res2, ovf2, hloop⟩ :=
      fc_loop_stop sc base (2 ^ w)
        ((if signed then 2 ^ (w - 1) - 1 + (if strippedNeg signed input then 1 else 0)
          else 2 ^ w - 1) / base)
        ((if signed then 2 ^ (w - 1) - 1 + (if strippedNeg signed input then 1 else 0)
          else 2 ^ w - 1) % base)
        (afterSign signed input) hrest 0 false 0
    have hrhs : ¬ (input = [] ∨ (signed = true ∧ (input = [45] ∨ input = [43]))) := by
      intro h
      exact hnil ((afterSign_eq_nil_iff signed input).mpr h)
    have hmain : from_chars_impl w signed sc input base =
        some ⟨signOffset signed input + stopLen sc base (afterSign signed input),
              if ovf2 = true then ERANGE else 0,
              if ovf2 = true then none
              else some (if signed = true then
                          (if strippedNeg signed input = true then
                            apply_sign w (toSigned w res2)
                          else toSigned w res2)
                        else (res2 : ℤ))⟩ := by
      simp only [from_chars_impl, if_neg hnil, hloop, Nat.zero_add]
      cases ovf2 <;> simp
    refine ⟨_, hmain, ?_⟩
    simp only [hrhs, iff_false]
    rintro ⟨h1, -⟩
    revert h1
    cases ovf2 <;> simp [ERANGE, EINVAL]

/-- C3 witness at a concrete input. -/
theorem c3_invalid_argument_witness :
    ∃ fcr : Fcr, from_chars_impl 32 true false [45] 10 = some fcr ∧
      ((fcr.ec = EINVAL ∧ fcr.idx = 0) ↔
        (([45] : List ℕ) = [] ∨ (true = true ∧ (([45] : List ℕ) = [45] ∨ ([45] : List ℕ) = [43])))) :=
  c3_invalid_argument 32 true false [45] 10 (by decide) (by decide)

/-- C3 counterexample to the claim as stated: for an UNSIGNED 32-bit target the
one-character input "-" parses with error code 0 (ok, not invalid-argument,
which is errno 22), value 0, and end = first + 1: no sign is stripped for
unsigned types and the '-' is consumed by the digit loop. -/
theorem c3_claim_counterexample :
    from_chars_impl 32 false false [45] 10 = some ⟨1, 0, some 0⟩ ∧ EINVAL = 22 := by decide

/-- ASCII code of digit value d, lowercase letters for 10-35, matching the
digit alphabet accepted case-insensitively by the table. -/
def digitChar (d : ℕ) : ℕ := if d < 10 then 48 + d else 87 + d

/-- Base-b digit bytes (most significant first) of n, fuel-limited. -/
def repBeAux (base : ℕ) : ℕ → ℕ → List ℕ
  | 0, _ => []
  | _ + 1, 0 => []
  | fuel + 1, n + 1 => repBeAux base fuel ((n + 1) / base) ++ [digitChar ((n + 1) % base)]

/-- Base-b text of n ≥ 1; 80 digits of fuel cover 2^64 in base 2. -/
def repBe (base n : ℕ) : List ℕ := repBeAux base 80 n

/-- Check that a parser outcome is success (ec = 0) with the given value. -/
def okWith (r : Option Fcr) (v : ℤ) : Bool :=
  match r with
  | some fcr => fcr.ec == 0 && fcr.out == some v
  | none => false

/-- Check that a parser outcome is range-error with untouched out-parameter. -/
def rangeErr (r : Option Fcr) : Bool :=
  match r with
  | some fcr => fcr.ec == ERANGE && fcr.out == none
  | none => false

/-- Boundary behavior over every supported width (8/16/32/64 bits, signed and
unsigned) and every base in [2,36]: the base-b text of max(T) parses to ok
with exactly max(T); the base-b text of max(T)+1 parses to range-error; and
for signed T the decimal text of min(T) parses to ok with exactly min(T). -/
def c4_boundary_check : Bool :=
  [8, 16, 32, 64].all fun w =>
    (List.range 35).all fun i =>
      let b := i + 2
      let umax := 2 ^ w - 1
      let imax := 2 ^ (w - 1) - 1
      okWith (from_chars_impl w false false (repBe b umax) b) (umax : ℤ) &&
      rangeErr (from_chars_impl w false false (repBe b (umax + 1)) b) &&
      okWith (from_chars_impl w true false (repBe b imax) b) (imax : ℤ) &&
      rangeErr (from_chars_impl w true false (repBe b (imax + 1)) b) &&
      okWith (from_chars_impl w true false (45 :: repBe 10 (2 ^ (w - 1))) 10)
        (-(2 ^ (w - 1) : ℤ))

/-- At each supported signed width, the signed value reaching apply_sign when
parsing the text of min(T) is min(T) itself; its mathematical negation is out
of the representable range (an overflow), and the wrapping negation maps it
back to min(T). -/
def c4_sign_wrap_check : Bool :=
  [8, 16, 32, 64].all fun w =>
    decide (toSigned w (2 ^ (w - 1)) = -(2 ^ (w - 1) : ℤ)) &&
    decide (apply_sign w (toSigned w (2 ^ (w - 1))) = -(2 ^ (w - 1) : ℤ)) &&
    !(decide (negInRange w (toSigned w (2 ^ (w - 1)))))

/-- C4 (amended): the boundary results hold at every supported width and
base, but the final sign application negates the signed value itself and at
min(T) this negation overflows (wraps), still yielding exactly min(T); it is
not performed through the unsigned intermediate. -/
theorem c4_boundary_theorem :
    c4_boundary_check = true ∧ c4_sign_wrap_check = true := by decide

/-- C4 counterexample to the claim as stated: parsing the decimal text of
min(int8) = -128 succeeds with exactly -128, but the signed value handed to
the final sign application is already -128, whose mathematical negation 128
is NOT representable in 8 bits: the sign application does introduce an
overflow (the code's negation of the signed value wraps), contrary to the
claim that no overflow is introduced. -/
theorem c4_claim_counterexample :
    from_chars_impl 8 true false [45, 49, 50, 56] 10 = some ⟨4, 0, some (-128)⟩ ∧
    toSigned 8 128 = -128 ∧ ¬ negInRange 8 (-128) ∧ apply_sign 8 (-128) = -128 := by decide

/-- C5: on a platform where char is signed, the byte 0xFF is the char value
-1; `digit_from_char` casts it directly to size_t, producing the index
2^64 - 1, so the access to the 256-entry table is OUT of bounds (undefined
behavior, modelled as none), refuting the in-bounds part of the claim.  Bytes
below 128 do look up correctly, so "ff", "FF" and "Ff" at base 16 all parse
to 255 as the claim's consequence states. -/
theorem c5_lookup_out_of_bounds :
    char_index true 255 = 2 ^ 64 - 1 ∧
    256 ≤ char_index true 255 ∧
    digit_from_char true 255 = none ∧
    okWith (from_chars_impl 32 false true [102, 102] 16) 255 = true ∧
    okWith (from_chars_impl 32 false true [70, 70] 16) 255 = true ∧
    okWith (from_chars_impl 32 false true [70, 102] 16) 255 = true := by decide

/-- The chars_format enumeration. -/
inductive ChFmt
  | general
  | scientific
  | fixed
  | hex
deriving DecidableEq, Repr

/-- Classification of a floating value as by std::fpclassify. -/
inductive FpCls
  | zero
  | subnormal
  | normal
  | infinite
  | nan
deriving DecidableEq, Repr

/-- Abstract model of a double value as the dispatcher observes it: the sign
bit, the classification, and the exact magnitude |value| (meaningful for
finite values; comparisons treat NaN as unordered). -/
structure RVal where
  sign : Bool
  cls : FpCls
  mag : ℚ
deriving DecidableEq, Repr

/-- IEEE comparison `q ≤ |value|`: false when value is NaN. -/
def absGe (v : RVal) (q : ℚ) : Bool :=
  v.cls != FpCls.nan && decide (q ≤ v.mag)

/-- IEEE comparison `|value| < q`: false when value is NaN. -/
def absLt (v : RVal) (q : ℚ) : Bool :=
  v.cls != FpCls.nan && decide (v.mag < q)

/-- IEEE comparison `value < 0`: false for NaN and for ±0. -/
def ltZero (v : RVal) : Bool :=
  match v.cls with
  | FpCls.nan => false
  | FpCls.infinite => v.sign
  | FpCls.zero => false
  | _ => v.sign && decide (0 < v.mag)

/-- Threshold `max_fractional_value` for the double instantiation
(src/to_chars_float_impl.hpp:605): 1e16, exactly representable. -/
def maxFractionalValue : ℚ := 10000000000000000

/-- Threshold `min_fractional_value` (src/to_chars_float_impl.hpp:606),
modelled as the exact rational 1e-4. -/
def minFractionalValue : ℚ := mkRat 1 10000

/-- Threshold `max_value` (src/to_chars_float_impl.hpp:607):
static_cast<double>(UINT64_MAX) rounds to 2^64. -/
def maxValueQ : ℚ := 18446744073709551616

/-- Arguments handed to the external floff explicit-precision generator. -/
structure FloffArgs where
  prec : ℤ
  changed : Bool
deriving DecidableEq, Repr

/-- Precision adjustment of to_chars_float_impl for a specified precision and
a non-hex format (src/to_chars_float_impl.hpp:640-661).  Note that fmt is
reassigned to fixed when the general-format override fires, BEFORE the branch
on fmt, so the subtraction for abs_value < 1 is applied in every branch,
including caller-requested fixed notation. -/
def floff_args (fmt : ChFmt) (precision : ℤ) (v : RVal) : FloffArgs :=
  let changed_fmt :=
    fmt == ChFmt.general && absGe v minFractionalValue && absLt v maxFractionalValue
  let fmt2 := if changed_fmt then ChFmt.fixed else fmt
  let fp :=
    if fmt2 == ChFmt.scientific || fmt2 == ChFmt.general then
      precision - (if absLt v 1 then 1 else 0)
    else
      precision - (if absLt v 1 then 1 else 0) + (if changed_fmt then 1 else 0)
  ⟨if fp ≤ 0 then 0 else fp, changed_fmt⟩

/-- Precision adjustment as the claim words it: subtract one only when the
caller-requested format is scientific or general (unchanged for
caller-requested fixed), add one back when the general-to-fixed override
fired, clamp at zero. -/
def floff_prec_claim (fmt : ChFmt) (precision : ℤ) (v : RVal) : ℤ :=
  let changed_fmt :=
    fmt == ChFmt.general && absGe v minFractionalValue && absLt v maxFractionalValue
  let sub : ℤ :=
    if absLt v 1 && (fmt == ChFmt.scientific || fmt == ChFmt.general) then 1 else 0
  max 0 (precision - sub + (if changed_fmt then 1 else 0))

/-- C8 (amended): the override to fixed fires exactly when the caller format
is general and 1e-4 ≤ |value| < 1e16, and the adjusted precision equals the
requested precision minus one whenever |value| < 1 — for scientific, general,
and caller-requested fixed alike — plus one when the override fired, clamped
to a minimum of zero. -/
theorem c8_adjusted_precision (fmt : ChFmt) (precision : ℤ) (v : RVal)
    (hfmt : fmt ≠ ChFmt.hex) :
    (floff_args fmt precision v).changed =
      (fmt == ChFmt.general && absGe v minFractionalValue && absLt v maxFractionalValue) ∧
    (floff_args fmt precision v).prec =
      max 0 (precision - (if absLt v 1 then 1 else 0) +
        (if (floff_args fmt precision v).changed then 1 else 0)) := by
  refine ⟨rfl, ?_⟩
  cases fmt with
  | hex => exact absurd rfl hfmt
  | general =>
    cases hb1 : absGe v minFractionalValue <;>
      cases hb2 : absLt v maxFractionalValue <;>
        cases hb3 : absLt v 1 <;>
          simp [floff_args, hb1, hb2, hb3] <;> split_ifs <;> omega
  | scientific =>
    cases hb3 : absLt v 1 <;>
      simp [floff_args, hb3] <;> split_ifs <;> omega
  | fixed =>
    cases hb3 : absLt v 1 <;>
      simp [floff_args, hb3] <;> split_ifs <;> omega

/-- C8 witness at a concrete input. -/
theorem c8_adjusted_precision_witness :
    (floff_args ChFmt.fixed 3 ⟨false, FpCls.normal, mkRat 1 2⟩).changed =
      (ChFmt.fixed == ChFmt.general &&
        absGe ⟨false, FpCls.normal, mkRat 1 2⟩ minFractionalValue &&
        absLt ⟨false, FpCls.normal, mkRat 1 2⟩ maxFractionalValue) ∧
    (floff_args ChFmt.fixed 3 ⟨false, FpCls.normal, mkRat 1 2⟩).prec =
      max 0 (3 - (if absLt ⟨false, FpCls.normal, mkRat 1 2⟩ 1 then 1 else 0) +
        (if (floff_args ChFmt.fixed 3 ⟨false, FpCls.normal, mkRat 1 2⟩).changed then 1 else 0)) :=
  c8_adjusted_precision ChFmt.fixed 3 ⟨false, FpCls.normal, mkRat 1 2⟩ (by decide)

/-- C8 counterexample to the claim as stated: for caller-requested FIXED
notation with precision 3 and |value| = 1/2 < 1, the code hands the external
generator precision 2 (it subtracts one in the fixed branch as well), while
the claim says the precision is unchanged (3) for caller-requested fixed. -/
theorem c8_claim_counterexample :
    (floff_args ChFmt.fixed 3 ⟨false, FpCls.normal, mkRat 1 2⟩).prec = 2 ∧
    floff_prec_claim ChFmt.fixed 3 ⟨false, FpCls.normal, mkRat 1 2⟩ = 3 := by decide

/-- Outcome of the float format dispatcher: `done` when it returns after
writing bytes itself, `bufErr` for its own range-error return, and a
delegation constructor for each external generator or sub-renderer it hands
off to (their own writes are out of the dispatcher's hands).  Writes are
(offset from first, byte) pairs. -/
inductive DResult
  | done (writes : List (ℕ × ℕ)) (endOff : ℕ)
  | bufErr (writes : List (ℕ × ℕ))
  | toFixedImpl (fmt : ChFmt) (precision : ℤ)
  | toIntImpl (writes : List (ℕ × ℕ))
  | toDragonbox (fmt : ChFmt)
  | toFloff (args : FloffArgs)
  | toHexImpl (precision : ℤ)
deriving DecidableEq, Repr

/-- Classification tail of to_chars_float_impl
(src/to_chars_float_impl.hpp:669-689), reached only for hex format: infinity
and NaN go to dragonbox; FP_ZERO writes an optional '-' (byte 45) followed by
the four bytes "0p+0" (48,112,43,48) and returns first+sign+4 WITHOUT any
check of the buffer size; everything else goes to to_chars_hex. -/
def hex_tail (v : RVal) (precision : ℤ) : DResult :=
  match v.cls with
  | FpCls.infinite => DResult.toDragonbox ChFmt.general
  | FpCls.nan => DResult.toDragonbox ChFmt.general
  | FpCls.zero =>
    let off := if v.sign then 1 else 0
    DResult.done ((if v.sign then [(0, 45)] else []) ++
      [(off, 48), (off + 1, 112), (off + 2, 43), (off + 3, 48)]) (off + 4)
  | _ => DResult.toHexImpl precision

/-- Translation of to_chars_float_impl (src/to_chars_float_impl.hpp:593-690)
for the double instantiation.  bufLen is last - first; the only buffer check
the dispatcher itself performs is first >= last at entry.  The unspecified
precision sentinel is -1. -/
def to_chars_float_impl (bufLen : ℕ) (v : RVal) (fmt : ChFmt) (precision : ℤ) :
    DResult :=
  if bufLen = 0 then DResult.bufErr []
  else if precision = -1 then
    if fmt = ChFmt.general ∨ fmt = ChFmt.fixed then
      if absGe v 1 && absLt v maxFractionalValue then
        DResult.toFixedImpl fmt precision
      else if absGe v maxFractionalValue && absLt v maxValueQ then
        DResult.toIntImpl (if ltZero v then [(0, 45)] else [])
      else DResult.toDragonbox fmt
    else if fmt = ChFmt.scientific then DResult.toDragonbox fmt
    else hex_tail v precision
  else
    if fmt ≠ ChFmt.hex then DResult.toFloff (floff_args fmt precision v)
    else hex_tail v precision

/-- Positions written by the dispatcher itself that lie at or beyond last. -/
def writesBeyond (bufLen : ℕ) : DResult → Bool
  | DResult.done ws _ => ws.any fun pc => bufLen ≤ pc.1
  | DResult.bufErr ws => ws.any fun pc => bufLen ≤ pc.1
  | DResult.toIntImpl ws => ws.any fun pc => bufLen ≤ pc.1
  | _ => false

/-- C1: formatting the value +0.0 in hex notation with unspecified precision
into a buffer of exactly one byte (first < last) makes the dispatcher take
the FP_ZERO hex path and write the four bytes "0p+0" at offsets 0..3 —
offsets 1, 2 and 3 are at or beyond last — then report success, refuting the
claim that no byte is ever written at or beyond last. -/
theorem c1_hex_zero_overrun :
    to_chars_float_impl 1 ⟨false, FpCls.zero, 0⟩ ChFmt.hex (-1) =
      DResult.done [(0, 48), (1, 112), (2, 43), (3, 48)] 4 ∧
    writesBeyond 1 (to_chars_float_impl 1 ⟨false, FpCls.zero, 0⟩ ChFmt.hex (-1)) = true := by
  decide

/-- The negative-zero variant: "-0p+0" is five bytes, the last four at or
beyond last for a one-byte buffer. -/
theorem c1_hex_negzero_overrun :
    to_chars_float_impl 1 ⟨true, FpCls.zero, 0⟩ ChFmt.hex (-1) =
      DResult.done [(0, 45), (1, 48), (2, 112), (3, 43), (4, 48)] 5 ∧
    writesBeyond 1 (to_chars_float_impl 1 ⟨true, FpCls.zero, 0⟩ ChFmt.hex (-1)) = true := by
  decide

/-- Non-finite classification handed to the non-finite renderer. -/
inductive NfCls
  | nan
  | infinite
deriving DecidableEq, Repr

/-- Result of the non-finite renderer: the (offset, byte) pairs written, the
returned pointer as an offset from the ORIGINAL first, and whether the call
succeeded (`ok = false` is the result_out_of_range return, whose pointer is
the current — possibly advanced — value of first). -/
structure NfResult where
  writes : List (ℕ × ℕ)
  ptrOff : ℕ
  ok : Bool
deriving DecidableEq, Repr

/-- Writes for the bytes of a string literal starting at offset `off`. -/
def strWrites (off : ℕ) (s : String) : List (ℕ × ℕ) :=
  s.data.enum.map fun ic => (off + ic.1, ic.2.toNat)

/-- Translation of to_chars_nonfinite (src/to_chars_float_impl.hpp:56-119);
the explicit specialization for the 128-bit type (lines 131-196) has the
identical branch structure, reading the sign from the bit pattern.  bufLen is
buffer_size = last - first, computed before anything is written; `neg` is the
sign bit and `signaling` the issignaling classification.  For a NaN the code
executes `*first++ = '-'` when the sign is set BEFORE any buffer-size check;
on the signaling branch the final offset is 9 + is_negative although first
has already been advanced past the sign. -/
def to_chars_nonfinite (bufLen : ℤ) (cls : NfCls) (neg signaling : Bool) :
    NfResult :=
  match cls with
  | NfCls.nan =>
    let sw : List (ℕ × ℕ) := if neg then [(0, 45)] else []
    let f0 : ℕ := if neg then 1 else 0
    if signaling && decide (9 + (if neg then (1 : ℤ) else 0) ≤ bufLen) then
      ⟨sw ++ strWrites f0 "nan(snan)", f0 + (9 + (if neg then 1 else 0)), true⟩
    else if neg && decide (9 ≤ bufLen) then
      ⟨sw ++ strWrites f0 "nan(ind)", f0 + 8, true⟩
    else if !neg && !signaling && decide (3 ≤ bufLen) then
      ⟨sw ++ strWrites f0 "nan", f0 + 3, true⟩
    else ⟨sw, f0, false⟩
  | NfCls.infinite =>
    if neg && decide (4 ≤ bufLen) then ⟨strWrites 0 "-inf", 4, true⟩
    else if !neg && decide (3 ≤ bufLen) then ⟨strWrites 0 "inf", 3, true⟩
    else ⟨[], 0, false⟩

/-- C6 (amended): whenever the non-finite renderer returns range-error, the
only byte that may have been written is the leading '-', written exactly when
the value is a NaN with the sign bit set — it is emitted before any capacity
check; for infinities and non-negative NaNs a range-error writes nothing. -/
theorem c6_error_writes (bufLen : ℤ) (cls : NfCls) (neg signaling : Bool)
    (herr : (to_chars_nonfinite bufLen cls neg signaling).ok = false) :
    (to_chars_nonfinite bufLen cls neg signaling).writes =
      (if cls = NfCls.nan ∧ neg = true then [(0, 45)] else []) := by
  cases cls <;> cases neg <;> cases signaling <;>
    simp only [to_chars_nonfinite] at herr ⊢ <;>
    split_ifs at herr ⊢ <;> simp_all

/-- C6 witness at a concrete input. -/
theorem c6_error_writes_witness :
    (to_chars_nonfinite 2 NfCls.infinite false false).writes =
      (if NfCls.infinite = NfCls.nan ∧ false = true then [(0, 45)] else []) :=
  c6_error_writes 2 NfCls.infinite false false (by decide)

/-- C6 counterexample to the claim as stated: a negative quiet NaN with a
5-byte buffer returns range-error AFTER having written the '-' sign byte at
first, refuting "no byte of the buffer has been written"; the returned
pointer is even first + 1. -/
theorem c6_claim_counterexample :
    to_chars_nonfinite 5 NfCls.nan true false = ⟨[(0, 45)], 1, false⟩ := by decide

/-- C7: for a negative signaling NaN and a large (16-byte) buffer the
renderer writes the ten bytes "-nan(snan)" at offsets 0..9 but returns
first + 11: the offset 9 + is_negative double-counts the sign that `first++`
already skipped.  The claim requires the end position first + 10. -/
theorem c7_end_position_bug :
    to_chars_nonfinite 16 NfCls.nan true true =
      ⟨[(0, 45), (1, 110), (2, 97), (3, 110), (4, 40), (5, 115), (6, 110),
        (7, 97), (8, 110), (9, 41)], 11, true⟩ ∧
    ([(0, 45), (1, 110), (2, 97), (3, 110), (4, 40), (5, 115), (6, 110),
      (7, 97), (8, 110), (9, 41)] : List (ℕ × ℕ)).length = 10 := by decide

/-- Half a byte: CHAR_BIT / 2 (src/to_chars_float_impl.hpp:305). -/
def nibble_bits : ℕ := 4

/-- Number of significand bits discarded when rounding to the requested hex
precision (src/to_chars_float_impl.hpp:383). -/
def lost_bits (hexPrecision realPrecision : ℕ) : ℕ :=
  (hexPrecision - realPrecision) * nibble_bits

/-- Rounding increment computed by to_chars_hex
(src/to_chars_float_impl.hpp:384-387) in w-bit unsigned arithmetic, for the
aligned significand `s` and `L = lost_bits`:
round = round_bit & (tail_bit | lsb_bit) & (1 << lost_bits), with
lsb_bit = s, round_bit = s << 1 and tail_bit = round_bit - 1 (wrapping). -/
def hex_round (w L s : ℕ) : ℕ :=
  let lsb_bit := s
  let round_bit := (s <<< 1) % 2 ^ w
  let tail_bit := (round_bit + (2 ^ w - 1)) % 2 ^ w
  round_bit &&& (tail_bit ||| lsb_bit) &&& ((1 <<< L) % 2 ^ w)

theorem div_eq_one_iff (a H : ℕ) (hH : 0 < H) (hlt : a < 2 * H) :
    a / H = 1 ↔ H ≤ a := by
  constructor
  · intro h
    have h1 : 1 ≤ a / H := by omega
    exact (Nat.one_le_div_iff hH).mp h1
  · intro h
    have h1 : 1 ≤ a / H := (Nat.one_le_div_iff hH).mpr h
    have h2 : a / H < 2 := (Nat.div_lt_iff_lt_mul hH).mpr (by omega)
    omega

theorem hex_round_eq (w L s : ℕ) (hL : 1 ≤ L) (hLw : L < w) (hs : 2 * s < 2 ^ w) :
    hex_round w L s =
      if 2 ^ (L - 1) < s % 2 ^ L ∨ (s % 2 ^ L = 2 ^ (L - 1) ∧ s / 2 ^ L % 2 = 1)
      then 2 ^ L else 0 := by
  have hw1 : 0 < 2 ^ w := by positivity
  have hL1 : 0 < 2 ^ L := by positivity
  have hLpow : (2 : ℕ) ^ L < 2 ^ w := Nat.pow_lt_pow_right (by norm_num) hLw
  have hT : (2 : ℕ) ^ L = 2 * 2 ^ (L - 1) := by
    conv_lhs => rw [show L = (L - 1) + 1 by omega]
    rw [pow_succ]
    ring
  have hT1 : (2 : ℕ) ^ (L + 1) = 2 * 2 ^ L := by
    rw [pow_succ]
    ring
  set H := 2 ^ (L - 1) with hHdef
  have hH : 0 < H := by positivity
  set d := s % 2 ^ L with hd
  set r2 := s / 2 ^ L % 2 with hr2
  have hdlt : d < 2 ^ L := Nat.mod_lt _ hL1
  rcases Nat.eq_zero_or_pos s with hs0 | hs1
  · subst hs0
    have hzero : hex_round w L 0 = 0 := by
      simp [hex_round]
    rw [hzero, if_neg]
    simp only [hd, hr2, Nat.zero_mod, Nat.zero_div]
    push_neg
    constructor
    · omega
    · intro h
      omega
  · have hrb : (s <<< 1) % 2 ^ w = 2 * s := by
      rw [Nat.shiftLeft_eq, pow_one, Nat.mod_eq_of_lt (by omega), Nat.mul_comm]
    have htail : (2 * s + (2 ^ w - 1)) % 2 ^ w = 2 * s - 1 := by
      have e : 2 * s + (2 ^ w - 1) = (2 * s - 1) + 2 ^ w := by omega
      rw [e, Nat.add_mod_right, Nat.mod_eq_of_lt (by omega)]
    have hone : (1 <<< L) % 2 ^ w = 2 ^ L := by
      rw [Nat.one_shiftLeft, Nat.mod_eq_of_lt hLpow]
    have hexpand : hex_round w L s = ((2 * s) &&& ((2 * s - 1) ||| s)) &&& 2 ^ L := by
      simp only [hex_round, hrb, htail, hone]
    rw [hexpand, Nat.and_two_pow, Nat.testBit_land, Nat.testBit_or]
    have hb1 : (2 * s).testBit L = decide (H ≤ d) := by
      rw [Nat.testBit_to_div_mod]
      have eHL : H * 2 = 2 ^ L := by omega
      have e1 : 2 * s / 2 ^ L % 2 = d / H := by
        rw [hT, Nat.mul_div_mul_left s H (by norm_num)]
        rw [Nat.div_mod_eq_mod_mul_div, eHL, ← hd]
      rw [e1]
      exact decide_eq_decide.mpr (div_eq_one_iff d H hH (by omega))
    have hb3 : s.testBit L = decide (r2 = 1) := by
      rw [Nat.testBit_to_div_mod]
    have hmod1 : 2 * s % 2 ^ (L + 1) = 2 * d := by
      rw [hd, hT1, Nat.mul_mod_mul_left]
    have hq0 := Nat.div_add_mod (2 * s) (2 ^ (L + 1))
    set q := 2 * s / 2 ^ (L + 1) with hqdef
    rw [hmod1] at hq0
    have hb2 : (2 * s - 1).testBit L = decide (d = 0 ∨ H < d) := by
      rw [Nat.testBit_to_div_mod]
      have e2 : (2 * s - 1) / 2 ^ L % 2 = (2 * s - 1) % 2 ^ (L + 1) / 2 ^ L := by
        rw [Nat.div_mod_eq_mod_mul_div]
        have e2a : (2 : ℕ) ^ L * 2 = 2 ^ (L + 1) := by omega
        rw [e2a]
      rw [e2]
      rcases Nat.eq_zero_or_pos d with hd0 | hdpos
      · have hdvd : 2 ^ L ∣ s := Nat.dvd_of_mod_eq_zero (by omega)
        have hsge : 2 ^ L ≤ s := Nat.le_of_dvd hs1 hdvd
        have hq1 : 1 ≤ q := by
          rcases Nat.eq_zero_or_pos q with h0 | h1
          · rw [h0] at hq0
            omega
          · exact h1
        have hmulq : 2 ^ (L + 1) * q = 2 ^ (L + 1) * (q - 1) + 2 ^ (L + 1) := by
          conv_lhs => rw [show q = (q - 1) + 1 by omega]
          rw [Nat.mul_add, Nat.mul_one]
        have e : 2 * s - 1 = (2 ^ (L + 1) - 1) + 2 ^ (L + 1) * (q - 1) := by omega
        rw [e, Nat.add_mul_mod_self_left, Nat.mod_eq_of_lt (by omega)]
        have hdiv : (2 ^ (L + 1) - 1) / 2 ^ L = 1 :=
          (div_eq_one_iff _ _ hL1 (by omega)).mpr (by omega)
        rw [hdiv]
        simp [hd0]
      · have e : 2 * s - 1 = (2 * d - 1) + 2 ^ (L + 1) * q := by omega
        rw [e, Nat.add_mul_mod_self_left, Nat.mod_eq_of_lt (by omega)]
        rw [decide_eq_decide]
        rw [div_eq_one_iff (2 * d - 1) (2 ^ L) hL1 (by omega)]
        omega
    rw [hb1, hb2, hb3]
    by_cases hc : H < d ∨ (d = H ∧ r2 = 1)
    · rw [if_pos hc]
      have hbool : (decide (H ≤ d) && (decide (d = 0 ∨ H < d) || decide (r2 = 1))) = true := by
        have h1 : H ≤ d := by omega
        have h2 : (d = 0 ∨ H < d) ∨ r2 = 1 := by omega
        rcases h2 with h2 | h2 <;> simp [h1, h2]
      rw [hbool]
      simp
    · rw [if_neg hc]
      have hbool : (decide (H ≤ d) && (decide (d = 0 ∨ H < d) || decide (r2 = 1))) = false := by
        by_cases h1 : H ≤ d
        · have h2 : ¬ (d = 0 ∨ H < d) := by omega
          have h3 : ¬ (r2 = 1) := by omega
          simp [h1, h2, h3]
        · simp [h1]
      rw [hbool]
      simp

/-- C9: whenever the requested hex precision is strictly below the intrinsic
precision, the rounding step adds one unit at the rounding position (2^L, so
one unit in the last retained hex digit) exactly when the discarded low L
bits exceed half a unit in the last retained place, or equal exactly half and
the lowest retained bit is odd — round to nearest, ties to even. -/
theorem c9_hex_rounding (w hexPrecision realPrecision s : ℕ)
    (hp : realPrecision < hexPrecision)
    (hw : lost_bits hexPrecision realPrecision < w)
    (hs : 2 * s < 2 ^ w) :
    hex_round w (lost_bits hexPrecision realPrecision) s =
      if 2 ^ (lost_bits hexPrecision realPrecision - 1) <
           s % 2 ^ lost_bits hexPrecision realPrecision ∨
         (s % 2 ^ lost_bits hexPrecision realPrecision =
            2 ^ (lost_bits hexPrecision realPrecision - 1) ∧
          s / 2 ^ lost_bits hexPrecision realPrecision % 2 = 1)
      then 2 ^ lost_bits hexPrecision realPrecision else 0 :=
  hex_round_eq w _ s (by unfold lost_bits nibble_bits; omega) hw hs

/-- C9 witness: rounding the double significand-like value 24 with one hex
digit discarded (L = 4): the discarded 8 is exactly half and the retained low
bit is odd, so one unit (16) is added. -/
theorem c9_hex_rounding_witness :
    hex_round 64 (lost_bits 13 12) 24 = 16 := by
  have h := c9_hex_rounding 64 13 12 24 (by decide) (by decide) (by decide)
  rw [h]
  decide

/-- Fuel-limited version of the parsing loop of from_chars_impl: `none` when
the fuel runs out before the loop exits. -/
def fc_loopF (sc : Bool) (base m ov md : ℕ) :
    ℕ → ℕ → Bool → ℕ → List ℕ → Option (ℕ × ℕ × Bool)
  | 0, _, _, _, _ => none
  | _ + 1, res, ovf, consumed, [] => some (consumed, res, ovf)
  | fuel + 1, res, ovf, consumed, c :: rest =>
    match digit_from_char sc c with
    | none => none
    | some d =>
      if base ≤ d then some (consumed + 1, res, ovf)
      else if res < ov ∨ (res = ov ∧ d ≤ md) then
        fc_loopF sc base m ov md fuel ((res * base + d) % m) ovf (consumed + 1) rest
      else fc_loopF sc base m ov md fuel res true (consumed + 1) rest

/-- One iteration of the digit-count reduction loop of to_chars_fixed_impl
(src/to_chars_float_impl.hpp:501-506): significand /= 10; ++exponent;
--num_dig.  State is (significand, exponent, num_dig). -/
def reduce_step (st : ℕ × ℤ × ℤ) : ℕ × ℤ × ℤ :=
  (st.1 / 10, st.2.1 + 1, st.2.2 - 1)

/-- Guard of the reduction loop: num_dig > precision + 2. -/
def reduce_guard (precision : ℤ) (st : ℕ × ℤ × ℤ) : Prop :=
  precision + 2 < st.2.2

/-- One iteration of the trailing-zero stripping loop of to_chars_fixed_impl
for general formatting (src/to_chars_float_impl.hpp:522-530): the loop
repeats while significand % 10 == 0, dividing the significand by 10 (the
exponent increment and num_dig decrement do not influence the guard). -/
def strip_step (sig : ℕ) : ℕ := sig / 10

/-- Guard of the stripping loop: significand % 10 == 0. -/
def strip_guard (sig : ℕ) : Prop := sig % 10 = 0

/-- The stripping loop terminates from significand `sig`: after finitely many
iterations the guard fails. -/
def StripTerminates (sig : ℕ) : Prop :=
  ∃ n, ¬ strip_guard (strip_step^[n] sig)

/-- One iteration of the decimal-tail zero-append loop of to_chars_fixed_impl
(src/to_chars_float_impl.hpp:557-561): abs_value /= 10, modelled over exact
rationals. -/
def append_step (v : ℚ) : ℚ := v / 10

/-- Guard of the append loop: fmod(abs_value, 10) == 0, i.e. the value is an
integer multiple of ten. -/
def append_guard (v : ℚ) : Prop := ∃ k : ℤ, v = 10 * k

/-- The append loop terminates from value v. -/
def AppendTerminates (v : ℚ) : Prop :=
  ∃ n, ¬ append_guard (append_step^[n] v)

theorem fc_loopF_eq_fc_loop (sc : Bool) (base m ov md : ℕ) :
    ∀ (l : List ℕ) (fuel res : ℕ) (ovf : Bool) (consumed : ℕ), l.length < fuel →
      fc_loopF sc base m ov md fuel res ovf consumed l =
        fc_loop sc base m ov md res ovf consumed l := by
  intro l
  induction l with
  | nil =>
    intro fuel res ovf consumed hf
    match fuel, hf with
    | fuel + 1, _ => rfl
  | cons c rest ih =>
    intro fuel res ovf consumed hf
    match fuel, hf with
    | fuel + 1, hf =>
      have hlen : rest.length < fuel := by
        simp only [List.length_cons] at hf
        omega
      cases hdc : digit_from_char sc c with
      | none => simp only [fc_loopF, fc_loop, hdc]
      | some d =>
        simp only [fc_loopF, fc_loop, hdc]
        by_cases hb : base ≤ d
        · simp only [if_pos hb]
        · simp only [if_neg hb]
          by_cases hq : res < ov ∨ (res = ov ∧ d ≤ md)
          · simp only [if_pos hq]
            exact ih fuel _ _ _ hlen
          · simp only [if_neg hq]
            exact ih fuel _ _ _ hlen

theorem reduce_iterate_dig (n : ℕ) (st : ℕ × ℤ × ℤ) :
    (reduce_step^[n] st).2.2 = st.2.2 - n := by
  induction n generalizing st with
  | zero => simp
  | succ k ih =>
    rw [Function.iterate_succ_apply, ih]
    simp only [reduce_step]
    push_cast
    ring

theorem reduce_terminates (precision : ℤ) (st : ℕ × ℤ × ℤ) :
    ∃ n : ℕ, ¬ reduce_guard precision (reduce_step^[n] st) := by
  refine ⟨(st.2.2 - (precision + 2)).toNat, ?_⟩
  simp only [reduce_guard, reduce_iterate_dig]
  omega

theorem strip_terminates_of_ne_zero : ∀ sig : ℕ, sig ≠ 0 → StripTerminates sig := by
  intro sig
  induction sig using Nat.strong_induction_on with
  | _ sig ih =>
    intro h
    by_cases hg : sig % 10 = 0
    · have h10 : 10 ∣ sig := Nat.dvd_of_mod_eq_zero hg
      have hge : 10 ≤ sig := Nat.le_of_dvd (by omega) h10
      obtain ⟨n, hn⟩ := ih (sig / 10) (by omega) (by omega)
      exact ⟨n + 1, by rwa [Function.iterate_succ_apply]⟩
    · exact ⟨0, hg⟩

theorem append_terminates_int : ∀ N : ℕ, ∀ m : ℤ, m.natAbs ≤ N → 1 ≤ m →
    AppendTerminates (m : ℚ) := by
  intro N
  induction N with
  | zero =>
    intro m hm h1
    omega
  | succ N ih =>
    intro m hm h1
    by_cases hg : append_guard (m : ℚ)
    · obtain ⟨k, hk⟩ := hg
      have hmk : m = 10 * k := by exact_mod_cast hk
      have hk1 : 1 ≤ k := by omega
      have hstep : append_step (m : ℚ) = (k : ℚ) := by
        rw [append_step, hk]
        push_cast
        field_simp
      obtain ⟨n, hn⟩ := ih k (by omega) hk1
      refine ⟨n + 1, ?_⟩
      rw [Function.iterate_succ_apply, hstep]
      exact hn
    · exact ⟨0, hg⟩

theorem append_terminates (v : ℚ) (h1 : 1 ≤ v) : AppendTerminates v := by
  by_cases hg : append_guard v
  · obtain ⟨k, hk⟩ := hg
    have hv : v = ((10 * k : ℤ) : ℚ) := by
      push_cast
      exact hk
    rw [hv]
    refine append_terminates_int (10 * k).natAbs _ le_rfl ?_
    have hk1 : (1 : ℚ) ≤ ((10 * k : ℤ) : ℚ) := by
      rw [← hv]
      exact h1
    exact_mod_cast hk1
  · exact ⟨0, hg⟩

/-- C10 (amended): all embedded loops terminate on all inputs, with one
exception.  The parser loop exits within input-length iterations (the
fuel-limited loop agrees with the total one as soon as the fuel exceeds the
input length); the digit-count reduction loop of the fixed renderer always
terminates; its decimal-tail zero-append loop terminates from every value
≥ 1 (the only values at which it is entered); and its trailing-zero
stripping loop terminates from every NONZERO significand — at significand 0
it loops forever, see the counterexample. -/
theorem c10_termination :
    (∀ (sc : Bool) (base m ov md : ℕ) (l : List ℕ) (fuel res : ℕ) (ovf : Bool)
        (consumed : ℕ), l.length < fuel →
        fc_loopF sc base m ov md fuel res ovf consumed l =
          fc_loop sc base m ov md res ovf consumed l) ∧
    (∀ (precision : ℤ) (st : ℕ × ℤ × ℤ),
        ∃ n : ℕ, ¬ reduce_guard precision (reduce_step^[n] st)) ∧
    (∀ sig : ℕ, sig ≠ 0 → StripTerminates sig) ∧
    (∀ v : ℚ, 1 ≤ v → AppendTerminates v) :=
  ⟨fun sc base m ov md l fuel res ovf consumed h =>
      fc_loopF_eq_fc_loop sc base m ov md l fuel res ovf consumed h,
   reduce_terminates, strip_terminates_of_ne_zero, append_terminates⟩

/-- C10 witness at concrete inputs. -/
theorem c10_termination_witness :
    (fc_loopF false 10 4294967296 429496729 6 3 0 false 0 [49, 50] =
      fc_loop false 10 4294967296 429496729 6 0 false 0 [49, 50]) ∧
    (∃ n : ℕ, ¬ reduce_guard 2 (reduce_step^[n] (12345, 0, 5))) ∧
    StripTerminates 30 ∧ AppendTerminates 20 :=
  ⟨c10_termination.1 false 10 4294967296 429496729 6 [49, 50] 3 0 false 0 (by decide),
   c10_termination.2.1 2 (12345, 0, 5),
   c10_termination.2.2.1 30 (by decide),
   c10_termination.2.2.2 20 (by norm_num)⟩

theorem strip_iterate_zero (n : ℕ) : strip_step^[n] 0 = 0 := by
  induction n with
  | zero => rfl
  | succ k ih => rw [Function.iterate_succ_apply, show strip_step 0 = 0 from rfl, ih]

/-- C10 counterexample to the claim as stated: from significand 0 the
trailing-zero stripping loop never exits — 0 % 10 == 0 holds at every
iterate, since 0 / 10 = 0 — so the loop does not terminate for all inputs.
Significand 0 is the decimal decomposition of value ±0, reachable by calling
to_chars_fixed_impl directly with a zero value, general notation and a
specified precision. -/
theorem c10_strip_nonterminating : ¬ StripTerminates 0 := by
  rintro ⟨n, hn⟩
  apply hn
  rw [strip_iterate_zero]
  rfl

end Charconv
